import Mathlib

/-!
# Verification of the zkTripStr key-disclosure orchestration scripts

Shallow embedding of the two prover scripts
(`sp1_prover/zkpoex-script/src/bin/prove.rs` and
`sp1_prover/ecdh-script/src/bin/prove.rs`) and proofs of the spec's
testable properties.

Timestamps, periods and round numbers are `u64` in the source; they are
embedded as `Nat`.  The only arithmetic that could overflow `u64`
(`genesis + next_round * period`) is embedded without wrapping, which
agrees with the source for all inputs where the `u64` computation does
not overflow.  The source computes the round quotient through `f64`
(`((from_genesis as f64) / (period as f64)).floor() + 1`); for
`period ≥ 1` and `from_genesis < 2^53` both operands and the true
quotient are within the range where IEEE-754 double rounding cannot
cross an integer boundary, so the `f64` computation coincides with
exact natural floor division, which is how it is embedded here.
-/

/-- Embedding of `next_round(now, period, genesis)` from
`zkpoex-script/src/bin/prove.rs`: returns the pair
`(next round number, its emission time)`.  Before genesis it returns
`(1, genesis)`; otherwise the quotient `(now - genesis) / period` is
floor division (see the header note on the source's `f64` detour). -/
def next_round (now period genesis : Nat) : Nat × Nat :=
  if now < genesis then (1, genesis)
  else
    let from_genesis := now - genesis
    let nr := from_genesis / period + 1
    (nr, genesis + nr * period)

/-- Embedding of `current_round(now, period, genesis)` from
`zkpoex-script/src/bin/prove.rs`: the first component of `next_round`,
decremented unless it is already `≤ 1`. -/
def current_round (now period genesis : Nat) : Nat :=
  let nr := (next_round now period genesis).1
  if nr ≤ 1 then nr else nr - 1

/-- Embedding of `round_at(chain_info, t)` from
`zkpoex-script/src/bin/prove.rs`.  The source converts the `SystemTime`
argument to unix seconds and delegates to `current_round`; here `now`
is already the unix-seconds value. -/
def round_at (now period genesis : Nat) : Nat :=
  current_round now period genesis

/-- Embedding of `round_after(chain_info, d)` from
`zkpoex-script/src/bin/prove.rs`.  The source takes
`SystemTime::now() + d`; here the current instant `now` is an explicit
argument, so the embedded function is `round_at (now + d)`. -/
def round_after (now d period genesis : Nat) : Nat :=
  round_at (now + d) period genesis

example : next_round 45 30 0 = (2, 60) := by decide
example : current_round 45 30 0 = 1 := by decide
example : round_at 45 30 0 = 1 := by decide
example : next_round 500 30 1000 = (1, 1000) := by decide
example : round_at 29 30 0 = 1 := by decide
example : round_at 30 30 0 = 1 := by decide
example : round_at 60 30 0 = 2 := by decide

/-!
## Command-line duration and the round computation of the time-delayed session

`ProveArgs.duration` in `zkpoex-script/src/bin/prove.rs` is an
`Option<humantime::Duration>` flag with clap `default_value = "90d"`:
when the flag is omitted on the command line, clap parses the default
instead, so the field is always populated from the CLI.  `main` then
evaluates `args.duration.expect("duration is expected ...")` and calls
`round_after` — the sole failure point of the round computation, which
the spec names `InvalidDuration`.  Durations are embedded as whole
seconds ("90d" = 90 · 86400 s).
-/

/-- The parsed value of the `--duration` flag's documented default
`"90d"`: 90 days in seconds. -/
def defaultDurationSecs : Nat := 90 * 86400

/-- Embedding of clap's handling of the `--duration` flag
(`zkpoex-script/src/bin/prove.rs`, `ProveArgs`): an omitted flag is
replaced by the parsed `default_value = "90d"`, so the parsed field is
always `some`. -/
def cliParsedDuration (flag : Option Nat) : Option Nat :=
  some (flag.getD defaultDurationSecs)

/-- Failure modes of the time-delayed session's round computation, as
named by the spec.  The source realises `InvalidDuration` as the
`expect` on a missing duration. -/
inductive RoundError where
  | InvalidDuration
  deriving DecidableEq, Repr

/-- Embedding of the `round` block of `main` in
`zkpoex-script/src/bin/prove.rs`: `args.duration.expect(...)` followed
by `round_after(&info, d)`.  A missing duration is the only failure
(`InvalidDuration`); otherwise the disclosure round is
`round_after`. -/
def computeDisclosureRound (duration : Option Nat)
    (now period genesis : Nat) : Except RoundError Nat :=
  match duration with
  | none => .error .InvalidDuration
  | some d => .ok (round_after now d period genesis)

/-!
## The persisted key slot shared by the two sessions

The time-delayed session (`zkpoex-script`) writes the raw 32-byte key
to `./data/zkpoex_enc_key` (line 133); the peer-targeted session
(`ecdh-script`) reads the same path back (lines 85–88).  The file
system is embedded as a partial map from path to byte contents; bytes
are `Nat`s (the source's `u8`).
-/

/-- The well-known working-state slot both sessions agree on:
`./data/zkpoex_enc_key`. -/
def zkpoexEncKeyPath : String := "./data/zkpoex_enc_key"

/-- A file-system state: a partial map from path to raw byte
contents. -/
def Store : Type := String → Option (List Nat)

/-- `std::fs::write`: replace the contents at `path`, leaving every
other path untouched. -/
def fsWrite (s : Store) (path : String) (data : List Nat) : Store :=
  fun p => if p = path then some data else s p

/-- `std::fs::read`: the contents at `path`, if the file exists. -/
def fsRead (s : Store) (path : String) : Option (List Nat) :=
  s path

/-- Embedding of the key-persistence step of the time-delayed session
(`zkpoex-script/src/bin/prove.rs` line 133): write the raw session key
to the well-known slot. -/
def persistSessionKey (s : Store) (key : List Nat) : Store :=
  fsWrite s zkpoexEncKeyPath key

/-- Failure modes of loading the persisted key, as named by the spec.
The source realises both as `unwrap` panics: `fs::read(...).unwrap()`
on a missing file (`KeyNotFound`) and `.try_into().unwrap()` on a
wrong-length value (`KeyLengthMismatch`). -/
inductive KeyLoadError where
  | KeyNotFound
  | KeyLengthMismatch
  deriving DecidableEq, Repr

/-- Embedding of the key-loading step of the peer-targeted session
(`ecdh-script/src/bin/prove.rs` lines 85–88):
`fs::read("./data/zkpoex_enc_key")` fails if the slot was never
written, and the `[u8; 32]` conversion fails unless the stored value
is exactly 32 bytes. -/
def loadSessionKey (s : Store) : Except KeyLoadError (List Nat) :=
  match fsRead s zkpoexEncKeyPath with
  | none => .error .KeyNotFound
  | some bs => if bs.length = 32 then .ok bs else .error .KeyLengthMismatch

/-- Embedding of the input assembly of the peer-targeted session
(`ecdh-script/src/bin/prove.rs` lines 81–98): the nonce is sampled
locally from the session's RNG (`rng.gen()`, passed in as
`rngNonce`), the key is loaded from the persisted slot, and
`stdin.write(&(key, nonce, local_sk, vendor_pk))` assembles the
prover's private inputs in that order. -/
def ecdhSessionInputs (s : Store) (rngNonce localSk vendorPk : List Nat) :
    Except KeyLoadError (List Nat × List Nat × List Nat × List Nat) :=
  match loadSessionKey s with
  | .error e => .error e
  | .ok key => .ok (key, rngNonce, localSk, vendorPk)

example : loadSessionKey (fun _ => none) = .error .KeyNotFound := rfl

/-!
## Fixture records

`SP1ZkPoExProofFixture` (`zkpoex-script/src/bin/prove.rs` lines 63–77,
assembled at lines 153–165 and written to the verifier-facing
`contracts/src/fixtures/zkpoex_fixture.json`) and
`SP1EcdhProofFixture` (`ecdh-script/src/bin/prove.rs` lines 34–43,
assembled at lines 114–121).  Byte-array fields are `List Nat`;
string fields stay `String`.
-/

/-- Embedding of `SP1ZkPoExProofFixture`
(`zkpoex-script/src/bin/prove.rs` lines 63–77): the record written to
the time-delayed path's fixture file. -/
structure SP1ZkPoExProofFixture where
  key : List Nat
  nonce : List Nat
  round : Nat
  before : String
  after : String
  hash_private_inputs : String
  chacha_cipher : List Nat
  tlock_cipher : List Nat
  calldata : String
  blockchain_settings : String
  vkey : String
  deriving DecidableEq, Repr

/-- Embedding of the fixture assembly of the time-delayed session
(`zkpoex-script/src/bin/prove.rs` lines 153–165): every field is the
corresponding session value, the `key` and `nonce` fields being the
raw session key and nonce themselves. -/
def mkZkpoexFixture (key nonce : List Nat) (round : Nat)
    (before after hash_private_inputs : String)
    (chacha_cipher tlock_cipher : List Nat)
    (calldata blockchain_settings vkey : String) : SP1ZkPoExProofFixture :=
  { key := key, nonce := nonce, round := round, before := before,
    after := after, hash_private_inputs := hash_private_inputs,
    chacha_cipher := chacha_cipher, tlock_cipher := tlock_cipher,
    calldata := calldata, blockchain_settings := blockchain_settings,
    vkey := vkey }

/-- Embedding of `SP1EcdhProofFixture`
(`ecdh-script/src/bin/prove.rs` lines 34–43): the record written to
the peer-targeted path's fixture file.  All fields are the hex/string
renderings the source stores. -/
structure SP1EcdhProofFixture where
  local_sk : String
  vendor_pk : String
  vkey : String
  key_hash : String
  public_values : String
  proof : String
  deriving DecidableEq, Repr

/-- Embedding of the fixture assembly of the peer-targeted session
(`ecdh-script/src/bin/prove.rs` lines 114–121).  The session's
symmetric `key` and `nonce` are in scope in `main` but are not fields
of the record: only the hex forms of the key-exchange material, the
verifying key, and the proof artifact's outputs (key-hash commitment,
public values, proof bytes) are stored. -/
def mkEcdhFixture (localSkHex vendorPkHex vkey keyHashHex publicValues proofBytes : String) :
    SP1EcdhProofFixture :=
  { local_sk := localSkHex, vendor_pk := vendorPkHex, vkey := vkey,
    key_hash := keyHashHex, public_values := publicValues,
    proof := proofBytes }

/-- One lower-case hex digit, as produced by the `hex` crate. -/
def hexDigitChar (n : Nat) : Char :=
  if n < 10 then Char.ofNat (48 + n) else Char.ofNat (87 + n)

/-- Embedding of `hex::encode`: two lower-case hex digits per byte. -/
def hexEncode (bs : List Nat) : String :=
  String.mk (bs.flatMap fun b => [hexDigitChar (b / 16), hexDigitChar (b % 16)])

/-- Embedding of the fixture assembly scope of the peer-targeted
session's `main` (`ecdh-script/src/bin/prove.rs` lines 81–121): the
symmetric `key` and the `nonce` are in scope when the fixture is
built, but the record stores only the hex key-exchange material, the
verifying key and the proof artifact's outputs — no plaintext-key
field. -/
def ecdhSessionFixture (key nonce localSk vendorPk : List Nat)
    (vkey keyHashHex publicValues proofBytes : String) : SP1EcdhProofFixture :=
  mkEcdhFixture (hexEncode localSk) (hexEncode vendorPk) vkey keyHashHex
    publicValues proofBytes

/-!
## Public-value decoders

The source delegates the byte-level decoding to external crates that
are not part of this repository: `bincode::deserialize` for the
time-delayed path's 5-field tuple
(`zkpoex-script/src/bin/prove.rs` lines 135–144) and alloy's
`KeyEncOut::abi_decode` for the peer-targeted path's
`{bytes32 keyHash, bytes keyCipher}` pair
(`ecdh-script/src/bin/prove.rs` lines 105–108).  Both decoders below
are therefore modelled from the spec (§4.3, §6): fixed-layout
decoders that fail with `PublicValueDecodeError` exactly when the
input is not the encoding of a value of the expected shape.
-/

/-- The decode failure mode named by the spec; the source realises it
as the `expect`/`unwrap` on the decoder's error result. -/
inductive DecodeError where
  | PublicValueDecodeError
  deriving DecidableEq, Repr

/-- The `k` low base-256 digits of `n`, least significant first. -/
def leBytes : Nat → Nat → List Nat
  | 0, _ => []
  | k + 1, n => n % 256 :: leBytes k (n / 256)

/-- The value of a little-endian base-256 digit list. -/
def leVal : List Nat → Nat
  | [] => 0
  | b :: bs => b + 256 * leVal bs

/-- A 32-byte big-endian word, as used by ABI encoding. -/
def beWord (n : Nat) : List Nat :=
  (leBytes 32 n).reverse

/-- The value of a big-endian byte string. -/
def beVal (bs : List Nat) : Nat :=
  leVal bs.reverse

/-- Modelled from the spec: one field of the time-delayed path's
fixed-layout tuple — a 64-bit little-endian byte count followed by
that many content bytes.  Returns the field and the remaining input,
or `none` if the input is too short. -/
def readField (bs : List Nat) : Option (List Nat × List Nat) :=
  if 8 ≤ bs.length then
    if leVal (bs.take 8) ≤ (bs.drop 8).length then
      some ((bs.drop 8).take (leVal (bs.take 8)),
            (bs.drop 8).drop (leVal (bs.take 8)))
    else none
  else none

/-- Modelled from the spec (§4.3 step 5): the time-delayed path's
public values are the fixed tuple {before-state, after-state,
private-input hash, symmetric ciphertext, reserved trailing field},
five length-prefixed byte strings in that order, consuming the whole
input. -/
def decodeZkpoexTuple (bs : List Nat) :
    Option (List Nat × List Nat × List Nat × List Nat × List Nat) :=
  (readField bs).bind fun p1 =>
  (readField p1.2).bind fun p2 =>
  (readField p2.2).bind fun p3 =>
  (readField p3.2).bind fun p4 =>
  (readField p4.2).bind fun p5 =>
  if p5.2 = [] then some (p1.1, p2.1, p3.1, p4.1, p5.1) else none

/-- Modelled from the spec: the time-delayed path's public-value
decoder surfaces any shape mismatch as `PublicValueDecodeError`,
never a default value. -/
def decodeZkpoexPublicValues (bs : List Nat) :
    Except DecodeError (List Nat × List Nat × List Nat × List Nat × List Nat) :=
  match decodeZkpoexTuple bs with
  | none => .error .PublicValueDecodeError
  | some t => .ok t

/-- The encoding of one length-prefixed field. -/
def encField (f : List Nat) : List Nat :=
  leBytes 8 f.length ++ f

/-- The encoding of the time-delayed path's 5-field public-value
tuple. -/
def encodeZkpoexPublicValues (a b c d e : List Nat) : List Nat :=
  encField a ++ encField b ++ encField c ++ encField d ++ encField e

/-- Mathlib-independent ceiling of `n` to a multiple of 32: the padded
length of an ABI `bytes` payload. -/
def padLen (n : Nat) : Nat :=
  (n + 31) / 32 * 32

/-- The ABI encoding of `KeyEncOut {bytes32 keyHash, bytes keyCipher}`
(`ecdh-script/src/bin/prove.rs` lines 45–50): the 32-byte hash word,
the offset word 0x40, the cipher length word, then the cipher bytes
zero-padded to a multiple of 32. -/
def encodeKeyEncOut (keyHash keyCipher : List Nat) : List Nat :=
  keyHash ++ beWord 64 ++ beWord keyCipher.length ++ keyCipher ++
    List.replicate (padLen keyCipher.length - keyCipher.length) 0

/-- Modelled from the spec (§4.3 peer path step 3): the structured
(ABI-style) decoder of the pair {key commitment hash, key ciphertext};
it accepts exactly the well-formed encodings and fails with
`PublicValueDecodeError` otherwise. -/
def decodeKeyEncOut (bs : List Nat) :
    Except DecodeError (List Nat × List Nat) :=
  if 96 ≤ bs.length ∧ beVal ((bs.drop 32).take 32) = 64 ∧
      (bs.drop 96).length = padLen (beVal ((bs.drop 64).take 32)) ∧
      (bs.drop 96).drop (beVal ((bs.drop 64).take 32)) =
        List.replicate ((bs.drop 96).length - beVal ((bs.drop 64).take 32)) 0 then
    .ok (bs.take 32, (bs.drop 96).take (beVal ((bs.drop 64).take 32)))
  else .error .PublicValueDecodeError

example :
    decodeZkpoexTuple (encodeZkpoexPublicValues [1] [] [2, 3] [] []) =
      some ([1], [], [2, 3], [], []) := by decide
example : decodeZkpoexTuple [0, 0, 0] = none := by decide
set_option maxRecDepth 4000 in
example :
    decodeKeyEncOut (encodeKeyEncOut (List.replicate 32 7) [9]) =
      .ok (List.replicate 32 7, [9]) := rfl
example : decodeKeyEncOut [1, 2, 3] = .error .PublicValueDecodeError := rfl

/-!
## Base-256 helper lemmas
-/

theorem leBytes_length (k n : Nat) : (leBytes k n).length = k := by
  induction k generalizing n with
  | zero => rfl
  | succ k ih => simp [leBytes, ih]

theorem leVal_leBytes (k n : Nat) : leVal (leBytes k n) = n % 256 ^ k := by
  induction k generalizing n with
  | zero => simp [leBytes, leVal, Nat.mod_one]
  | succ k ih =>
    simp only [leBytes, leVal, ih]
    rw [pow_succ, mul_comm (256 ^ k) 256, Nat.mod_mul]

theorem leBytes_leVal (l : List Nat) (hb : ∀ x ∈ l, x < 256) :
    leBytes l.length (leVal l) = l := by
  induction l with
  | nil => rfl
  | cons b bs ih =>
    have hb0 : b < 256 := hb b (by simp)
    have hmod : (b + 256 * leVal bs) % 256 = b := by omega
    have hdiv : (b + 256 * leVal bs) / 256 = leVal bs := by omega
    simp only [List.length_cons, leBytes, leVal, hmod, hdiv, List.cons.injEq, true_and]
    exact ih (fun x hx => hb x (by simp [hx]))

theorem leVal_lt (l : List Nat) (hb : ∀ x ∈ l, x < 256) :
    leVal l < 256 ^ l.length := by
  induction l with
  | nil => simp [leVal]
  | cons b bs ih =>
    have hb0 : b < 256 := hb b (by simp)
    have h1 : leVal bs < 256 ^ bs.length := ih (fun x hx => hb x (by simp [hx]))
    simp only [leVal, List.length_cons, pow_succ]
    omega

theorem beWord_length (n : Nat) : (beWord n).length = 32 := by
  simp [beWord, leBytes_length]

theorem beVal_beWord (n : Nat) : beVal (beWord n) = n % 256 ^ 32 := by
  simp [beVal, beWord, leVal_leBytes]

theorem beWord_beVal (l : List Nat) (h32 : l.length = 32)
    (hb : ∀ x ∈ l, x < 256) : beWord (beVal l) = l := by
  have h := leBytes_leVal l.reverse (fun x hx => hb x (List.mem_reverse.mp hx))
  rw [List.length_reverse, h32] at h
  simp only [beWord, beVal, h, List.reverse_reverse]

theorem beVal_lt (l : List Nat) (hb : ∀ x ∈ l, x < 256) :
    beVal l < 256 ^ l.length := by
  have := leVal_lt l.reverse (fun x hx => hb x (List.mem_reverse.mp hx))
  rwa [List.length_reverse] at this

theorem le_padLen (n : Nat) : n ≤ padLen n := by
  unfold padLen
  omega

/-!
## Decoder/encoder round-trip lemmas
-/

theorem readField_encField (f rest : List Nat) (h : f.length < 256 ^ 8) :
    readField (encField f ++ rest) = some (f, rest) := by
  have hlen : (leBytes 8 f.length).length = 8 := leBytes_length 8 f.length
  have hassoc : encField f ++ rest = leBytes 8 f.length ++ (f ++ rest) := by
    simp [encField, List.append_assoc]
  have h8 : 8 ≤ (leBytes 8 f.length ++ (f ++ rest)).length := by
    simp [List.length_append, hlen]
  have htake : (leBytes 8 f.length ++ (f ++ rest)).take 8 = leBytes 8 f.length :=
    List.take_left' hlen
  have hdrop : (leBytes 8 f.length ++ (f ++ rest)).drop 8 = f ++ rest :=
    List.drop_left' hlen
  have hval : leVal ((leBytes 8 f.length ++ (f ++ rest)).take 8) = f.length := by
    rw [htake, leVal_leBytes, Nat.mod_eq_of_lt h]
  rw [hassoc]
  simp only [readField]
  rw [if_pos h8, hval, hdrop,
    if_pos (by simp : f.length ≤ (f ++ rest).length)]
  rw [List.take_left, List.drop_left]

theorem readField_encField_nil (f : List Nat) (h : f.length < 256 ^ 8) :
    readField (encField f) = some (f, []) := by
  have hf := readField_encField f [] h
  rwa [List.append_nil] at hf

theorem readField_eq_some (bs f rest : List Nat) (hby : ∀ x ∈ bs, x < 256)
    (h : readField bs = some (f, rest)) :
    bs = encField f ++ rest ∧ f.length < 256 ^ 8 ∧ ∀ x ∈ rest, x < 256 := by
  simp only [readField] at h
  by_cases h8 : 8 ≤ bs.length
  · rw [if_pos h8] at h
    by_cases hn : leVal (bs.take 8) ≤ (bs.drop 8).length
    · rw [if_pos hn] at h
      simp only [Option.some.injEq, Prod.mk.injEq] at h
      obtain ⟨hf, hrest⟩ := h
      have htlen : (bs.take 8).length = 8 := by
        rw [List.length_take]; omega
      have htb : ∀ x ∈ bs.take 8, x < 256 :=
        fun x hx => hby x (List.take_subset _ _ hx)
      have hflen : f.length = leVal (bs.take 8) := by
        rw [← hf, List.length_take]; omega
      have hfb8 : leBytes 8 f.length = bs.take 8 := by
        have hh := leBytes_leVal (bs.take 8) htb
        rw [htlen] at hh
        rw [hflen]
        exact hh
      refine ⟨?_, ?_, ?_⟩
      · have hcat : f ++ rest = bs.drop 8 := by
          rw [← hf, ← hrest]
          exact List.take_append_drop _ _
        simp only [encField]
        rw [hfb8, List.append_assoc, hcat, List.take_append_drop]
      · have hh := leVal_lt (bs.take 8) htb
        rw [htlen] at hh
        rw [hflen]
        exact hh
      · intro x hx
        rw [← hrest] at hx
        exact hby x (List.drop_subset _ _ (List.drop_subset _ _ hx))
    · rw [if_neg hn] at h
      exact absurd h (by simp)
  · rw [if_neg h8] at h
    exact absurd h (by simp)

theorem decodeZkpoexTuple_encode (a b c d e : List Nat)
    (ha : a.length < 256 ^ 8) (hbf : b.length < 256 ^ 8) (hc : c.length < 256 ^ 8)
    (hd : d.length < 256 ^ 8) (he : e.length < 256 ^ 8) :
    decodeZkpoexTuple (encodeZkpoexPublicValues a b c d e) =
      some (a, b, c, d, e) := by
  simp only [decodeZkpoexTuple, encodeZkpoexPublicValues, List.append_assoc,
    readField_encField a _ ha, readField_encField b _ hbf,
    readField_encField c _ hc, readField_encField d _ hd,
    readField_encField_nil e he, Option.some_bind]
  simp

theorem decodeZkpoexTuple_eq_some (bs : List Nat) (hby : ∀ x ∈ bs, x < 256)
    (a b c d e : List Nat) (h : decodeZkpoexTuple bs = some (a, b, c, d, e)) :
    bs = encodeZkpoexPublicValues a b c d e ∧
      a.length < 256 ^ 8 ∧ b.length < 256 ^ 8 ∧ c.length < 256 ^ 8 ∧
      d.length < 256 ^ 8 ∧ e.length < 256 ^ 8 := by
  simp only [decodeZkpoexTuple] at h
  rcases h1 : readField bs with _ | ⟨a1, r1⟩
  · rw [h1] at h; simp at h
  · rw [h1] at h
    simp only [Option.some_bind] at h
    obtain ⟨hbs1, hal, hr1⟩ := readField_eq_some bs a1 r1 hby h1
    rcases h2 : readField r1 with _ | ⟨b1, r2⟩
    · rw [h2] at h; simp at h
    · rw [h2] at h
      simp only [Option.some_bind] at h
      obtain ⟨hbs2, hbl, hr2⟩ := readField_eq_some r1 b1 r2 hr1 h2
      rcases h3 : readField r2 with _ | ⟨c1, r3⟩
      · rw [h3] at h; simp at h
      · rw [h3] at h
        simp only [Option.some_bind] at h
        obtain ⟨hbs3, hcl, hr3⟩ := readField_eq_some r2 c1 r3 hr2 h3
        rcases h4 : readField r3 with _ | ⟨d1, r4⟩
        · rw [h4] at h; simp at h
        · rw [h4] at h
          simp only [Option.some_bind] at h
          obtain ⟨hbs4, hdl, hr4⟩ := readField_eq_some r3 d1 r4 hr3 h4
          rcases h5 : readField r4 with _ | ⟨e1, r5⟩
          · rw [h5] at h; simp at h
          · rw [h5] at h
            simp only [Option.some_bind] at h
            obtain ⟨hbs5, hel, hr5⟩ := readField_eq_some r4 e1 r5 hr4 h5
            by_cases hnil : r5 = []
            · rw [if_pos hnil] at h
              simp only [Option.some.injEq, Prod.mk.injEq] at h
              obtain ⟨ha', hb', hc', hd', he'⟩ := h
              subst ha' hb' hc' hd' he'
              subst hnil
              rw [List.append_nil] at hbs5
              subst hbs5 hbs4 hbs3 hbs2
              refine ⟨?_, hal, hbl, hcl, hdl, hel⟩
              rw [hbs1]
              simp [encodeZkpoexPublicValues, List.append_assoc]
            · rw [if_neg hnil] at h
              simp at h

theorem word96_split (u v w r : List Nat) (hu : u.length = 32)
    (hv : v.length = 32) (hw : w.length = 32) :
    (u ++ (v ++ (w ++ r))).take 32 = u ∧
    ((u ++ (v ++ (w ++ r))).drop 32).take 32 = v ∧
    ((u ++ (v ++ (w ++ r))).drop 64).take 32 = w ∧
    (u ++ (v ++ (w ++ r))).drop 96 = r ∧
    (u ++ (v ++ (w ++ r))).length = 96 + r.length := by
  have hd32 : (u ++ (v ++ (w ++ r))).drop 32 = v ++ (w ++ r) :=
    List.drop_left' hu
  have hd64 : (u ++ (v ++ (w ++ r))).drop 64 = w ++ r := by
    have h1 : (u ++ (v ++ (w ++ r))).drop (u.length + 32) =
        (v ++ (w ++ r)).drop 32 := List.drop_append 32
    rw [hu] at h1
    norm_num at h1
    rw [h1]
    exact List.drop_left' hv
  have hd96 : (u ++ (v ++ (w ++ r))).drop 96 = r := by
    have h1 : (u ++ (v ++ (w ++ r))).drop (u.length + 64) =
        (v ++ (w ++ r)).drop 64 := List.drop_append 64
    rw [hu] at h1
    norm_num at h1
    have h2 : (v ++ (w ++ r)).drop (v.length + 32) = (w ++ r).drop 32 :=
      List.drop_append 32
    rw [hv] at h2
    norm_num at h2
    rw [h1, h2]
    exact List.drop_left' hw
  refine ⟨List.take_left' hu, ?_, ?_, hd96, ?_⟩
  · rw [hd32]
    exact List.take_left' hv
  · rw [hd64]
    exact List.take_left' hw
  · simp only [List.length_append, hu, hv, hw]
    omega

theorem decodeKeyEncOut_encode (kh kc : List Nat) (hh : kh.length = 32)
    (hc : kc.length < 256 ^ 32) :
    decodeKeyEncOut (encodeKeyEncOut kh kc) = .ok (kh, kc) := by
  have h64 : (64 : Nat) < 256 ^ 32 :=
    lt_of_lt_of_le (by norm_num) (Nat.le_self_pow (by norm_num) 256)
  have hpw : kc.length ≤ padLen kc.length := le_padLen kc.length
  have hassoc : encodeKeyEncOut kh kc =
      kh ++ (beWord 64 ++ (beWord kc.length ++
        (kc ++ List.replicate (padLen kc.length - kc.length) 0))) := by
    simp [encodeKeyEncOut, List.append_assoc]
  obtain ⟨hA, hB, hC, hD, hE⟩ :=
    word96_split kh (beWord 64) (beWord kc.length)
      (kc ++ List.replicate (padLen kc.length - kc.length) 0)
      hh (beWord_length 64) (beWord_length kc.length)
  have hlen : (kc ++ List.replicate (padLen kc.length - kc.length) 0).length =
      padLen kc.length := by
    simp only [List.length_append, List.length_replicate]
    omega
  have hdropkc : (kc ++ List.replicate (padLen kc.length - kc.length) 0).drop
      kc.length = List.replicate (padLen kc.length - kc.length) 0 :=
    List.drop_left kc _
  have htakekc : (kc ++ List.replicate (padLen kc.length - kc.length) 0).take
      kc.length = kc := List.take_left kc _
  rw [hassoc]
  simp only [decodeKeyEncOut]
  rw [hB, hC, hD, hA, hE, beVal_beWord, beVal_beWord,
    Nat.mod_eq_of_lt h64, Nat.mod_eq_of_lt hc]
  rw [if_pos ⟨by omega, rfl, by rw [hlen], by rw [hdropkc, hlen]⟩]
  rw [htakekc]

theorem decodeKeyEncOut_eq_ok (bs : List Nat) (hby : ∀ x ∈ bs, x < 256)
    (kh kc : List Nat) (h : decodeKeyEncOut bs = .ok (kh, kc)) :
    bs = encodeKeyEncOut kh kc ∧ kh.length = 32 ∧ kc.length < 256 ^ 32 := by
  simp only [decodeKeyEncOut] at h
  split at h
  case isFalse hcond => simp at h
  case isTrue hcond =>
    obtain ⟨h96, hoff, hlen, hpad⟩ := hcond
    simp only [Except.ok.injEq, Prod.mk.injEq] at h
    obtain ⟨hkh, hkc⟩ := h
    have hw1len : ((bs.drop 32).take 32).length = 32 := by
      rw [List.length_take, List.length_drop]
      omega
    have hw2len : ((bs.drop 64).take 32).length = 32 := by
      rw [List.length_take, List.length_drop]
      omega
    have hw1b : ∀ x ∈ (bs.drop 32).take 32, x < 256 :=
      fun x hx => hby x (List.drop_subset _ _ (List.take_subset _ _ hx))
    have hw2b : ∀ x ∈ (bs.drop 64).take 32, x < 256 :=
      fun x hx => hby x (List.drop_subset _ _ (List.take_subset _ _ hx))
    have hkhlen : kh.length = 32 := by
      rw [← hkh, List.length_take]
      omega
    have hnlt : beVal ((bs.drop 64).take 32) < 256 ^ 32 := by
      have hv := beVal_lt _ hw2b
      rwa [hw2len] at hv
    have hnp : beVal ((bs.drop 64).take 32) ≤
        padLen (beVal ((bs.drop 64).take 32)) := le_padLen _
    have hkclen : kc.length = beVal ((bs.drop 64).take 32) := by
      rw [← hkc, List.length_take, hlen]
      omega
    have hw1 : (bs.drop 32).take 32 = beWord 64 := by
      rw [← hoff]
      exact (beWord_beVal _ hw1len hw1b).symm
    have hw2 : (bs.drop 64).take 32 =
        beWord (beVal ((bs.drop 64).take 32)) :=
      (beWord_beVal _ hw2len hw2b).symm
    have hdd1 : (bs.drop 32).drop 32 = bs.drop 64 := by
      rw [List.drop_drop]
    have hdd2 : (bs.drop 64).drop 32 = bs.drop 96 := by
      rw [List.drop_drop]
    have e2 : bs.drop 32 = (bs.drop 32).take 32 ++ bs.drop 64 := by
      rw [← hdd1]
      exact (List.take_append_drop 32 (bs.drop 32)).symm
    have e3 : bs.drop 64 = (bs.drop 64).take 32 ++ bs.drop 96 := by
      rw [← hdd2]
      exact (List.take_append_drop 32 (bs.drop 64)).symm
    have e4 : bs.drop 96 = kc ++
        List.replicate (padLen (beVal ((bs.drop 64).take 32)) -
          beVal ((bs.drop 64).take 32)) 0 := by
      have e5 := (List.take_append_drop (beVal ((bs.drop 64).take 32))
        (bs.drop 96)).symm
      rw [hkc, hpad, hlen] at e5
      exact e5
    refine ⟨?_, hkhlen, by rw [hkclen]; exact hnlt⟩
    have henc : encodeKeyEncOut kh kc =
        kh ++ (beWord 64 ++ (beWord kc.length ++
          (kc ++ List.replicate (padLen kc.length - kc.length) 0))) := by
      simp [encodeKeyEncOut, List.append_assoc]
    rw [henc, hkclen]
    calc bs = bs.take 32 ++ bs.drop 32 := (List.take_append_drop 32 bs).symm
      _ = kh ++ ((bs.drop 32).take 32 ++ bs.drop 64) := by rw [hkh, ← e2]
      _ = kh ++ (beWord 64 ++ ((bs.drop 64).take 32 ++ bs.drop 96)) := by
          rw [hw1, ← e3]
      _ = kh ++ (beWord 64 ++ (beWord (beVal ((bs.drop 64).take 32)) ++
            (kc ++ List.replicate (padLen (beVal ((bs.drop 64).take 32)) -
              beVal ((bs.drop 64).take 32)) 0))) := by
          rw [← hw2, ← e4]

/-!
## Round-scheduler helper lemmas
-/

theorem one_le_next_round_fst (now period genesis : Nat) :
    1 ≤ (next_round now period genesis).1 := by
  simp only [next_round]
  split
  · simp
  · simp

theorem one_le_current_round (now period genesis : Nat) :
    1 ≤ current_round now period genesis := by
  have h1 := one_le_next_round_fst now period genesis
  simp only [current_round]
  split <;> omega

theorem next_round_fst_mono (t1 t2 period genesis : Nat) (h : t1 ≤ t2) :
    (next_round t1 period genesis).1 ≤ (next_round t2 period genesis).1 := by
  simp only [next_round]
  by_cases h1 : t1 < genesis
  · by_cases h2 : t2 < genesis
    · simp [h1, h2]
    · simp [h1, h2]
  · have h2 : ¬ t2 < genesis := by omega
    simp only [h1, h2, if_false]
    have hsub : t1 - genesis ≤ t2 - genesis := by omega
    exact Nat.add_le_add_right (Nat.div_le_div_right hsub) 1

theorem current_round_mono (t1 t2 period genesis : Nat) (h : t1 ≤ t2) :
    current_round t1 period genesis ≤ current_round t2 period genesis := by
  have hm := next_round_fst_mono t1 t2 period genesis h
  simp only [current_round]
  split <;> split <;> omega

/-!
## Claim theorems
-/

/-- C1 (counterexample): the claim attributes the identity
`round_at(now) = floor((now - genesis) / period) + 1` to `round_at`,
but the code's `round_at` delegates to `current_round`: at
`now = 45`, `period = 30`, `genesis = 0` it returns `1` while the
claimed formula gives `2`, so the universally quantified claim is
false of `round_at`. -/
theorem round_at_quotient_counterexample :
    round_at 45 30 0 = 1 ∧ (45 - 0) / 30 + 1 = 2 ∧
    ¬ (∀ now period genesis : Nat, genesis ≤ now → 1 ≤ period →
        round_at now period genesis = (now - genesis) / period + 1) :=
  ⟨by decide, by decide,
    fun hall => absurd (hall 45 30 0 (by omega) (by omega)) (by decide)⟩

/-- C1 (amended): for every `now ≥ genesis` and `period ≥ 1`, the
next-round number computed by `next_round` equals
`floor((now - genesis) / period) + 1`, `current_round` equals
`max 1 (next_round - 1)`, and `round_at` returns `current_round`
(the claimed quotient identity holds of `next_round`, not of
`round_at`). -/
theorem next_round_quotient_and_current_round (now period genesis : Nat)
    (hg : genesis ≤ now) (hp : 1 ≤ period) :
    (next_round now period genesis).1 = (now - genesis) / period + 1 ∧
    current_round now period genesis =
      max 1 ((next_round now period genesis).1 - 1) ∧
    round_at now period genesis = current_round now period genesis := by
  have h1 : (next_round now period genesis).1 =
      (now - genesis) / period + 1 := by
    simp only [next_round]
    rw [if_neg (by omega)]
  refine ⟨h1, ?_, rfl⟩
  simp only [current_round, h1]
  generalize (now - genesis) / period = q
  split <;> omega

/-- Witness for the amended C1 at Scenario A
(`genesis = 0`, `period = 30`, `now = 45`): `next_round` is `2` and
`current_round` is `1`. -/
theorem next_round_quotient_and_current_round_witness :
    (0 ≤ 45 ∧ 1 ≤ 30) ∧
    ((next_round 45 30 0).1 = (45 - 0) / 30 + 1 ∧
      current_round 45 30 0 = max 1 ((next_round 45 30 0).1 - 1) ∧
      round_at 45 30 0 = current_round 45 30 0) ∧
    (next_round 45 30 0).1 = 2 ∧ current_round 45 30 0 = 1 :=
  ⟨⟨by omega, by omega⟩,
    next_round_quotient_and_current_round 45 30 0 (by omega) (by omega),
    by decide, by decide⟩

/-- C4: for every timestamp strictly before genesis, `next_round`
returns round `1` with emission time `genesis`, for every period, and
`round_at` returns `1`. -/
theorem round_before_genesis (now period genesis : Nat) (h : now < genesis) :
    next_round now period genesis = (1, genesis) ∧
    round_at now period genesis = 1 := by
  have h1 : next_round now period genesis = (1, genesis) := by
    simp only [next_round]
    rw [if_pos h]
  refine ⟨h1, ?_⟩
  simp [round_at, current_round, h1]

/-- Witness for C4 at Scenario B (`genesis = 1000`, `now = 500`):
round `1`, emission time `1000`. -/
theorem round_before_genesis_witness :
    500 < 1000 ∧ next_round 500 30 1000 = (1, 1000) ∧
    round_at 500 30 1000 = 1 :=
  ⟨by omega, round_before_genesis 500 30 1000 (by omega)⟩

/-- C5: `round_at` is monotone in its time argument for every fixed
period and genesis. -/
theorem round_at_mono (t1 t2 period genesis : Nat) (h : t1 ≤ t2) :
    round_at t1 period genesis ≤ round_at t2 period genesis :=
  current_round_mono t1 t2 period genesis h

/-- Witness for C5 at `t1 = 10 ≤ t2 = 1000`, `period = 30`,
`genesis = 0`. -/
theorem round_at_mono_witness :
    10 ≤ 1000 ∧ round_at 10 30 0 ≤ round_at 1000 30 0 :=
  ⟨by omega, round_at_mono 10 1000 30 0 (by omega)⟩

/-- C9: a zero disclosure delay resolves to the round at the current
instant itself: `round_after now 0 = round_at now`. -/
theorem round_after_zero_duration (now period genesis : Nat)
    (h : genesis ≤ now) :
    round_after now 0 period genesis = round_at now period genesis := by
  simp only [round_after, Nat.add_zero]

/-- Witness for C9 at `now = 45`, `period = 30`, `genesis = 0`. -/
theorem round_after_zero_duration_witness :
    (0 : Nat) ≤ 45 ∧ round_after 45 0 30 0 = round_at 45 30 0 :=
  ⟨by omega, round_after_zero_duration 45 30 0 (by omega)⟩

/-- C10: for every timestamp and genesis, and every period of at
least one second, both the next-round number and `current_round` are
at least `1`. -/
theorem rounds_at_least_one (now period genesis : Nat) (hp : 1 ≤ period) :
    1 ≤ (next_round now period genesis).1 ∧
    1 ≤ current_round now period genesis :=
  ⟨one_le_next_round_fst now period genesis,
   one_le_current_round now period genesis⟩

/-- Witness for C10 at `now = 45`, `period = 30`, `genesis = 0`. -/
theorem rounds_at_least_one_witness :
    (1 : Nat) ≤ 30 ∧ 1 ≤ (next_round 45 30 0).1 ∧
    1 ≤ current_round 45 30 0 :=
  ⟨by omega, rounds_at_least_one 45 30 0 (by omega)⟩

/-- C2: key continuity — for every 32-byte key, writing it to the
well-known working-state slot (time-delayed session) and then loading
the slot (peer-targeted session) yields exactly the written key. -/
theorem persisted_key_roundtrip (s : Store) (key : List Nat)
    (h : key.length = 32) :
    loadSessionKey (persistSessionKey s key) = .ok key := by
  simp [loadSessionKey, persistSessionKey, fsRead, fsWrite, h]

/-- Witness for C2 with the all-zero 32-byte key over the empty
store. -/
theorem persisted_key_roundtrip_witness :
    (List.replicate 32 0).length = 32 ∧
    loadSessionKey (persistSessionKey (fun _ => none) (List.replicate 32 0)) =
      .ok (List.replicate 32 0) :=
  ⟨by decide, persisted_key_roundtrip (fun _ => none) _ (by decide)⟩

/-- C7: loading the persisted key fails with `KeyNotFound` when the
slot was never written, fails with `KeyLengthMismatch` when the
stored value is not exactly 32 bytes, succeeds with the stored bytes
otherwise, and the nonce of the peer-targeted session's prover inputs
is the locally sampled RNG value, not read from storage. -/
theorem load_session_key_spec (s : Store) (rngNonce localSk vendorPk : List Nat) :
    (s zkpoexEncKeyPath = none → loadSessionKey s = .error .KeyNotFound) ∧
    (∀ bs, s zkpoexEncKeyPath = some bs → bs.length ≠ 32 →
      loadSessionKey s = .error .KeyLengthMismatch) ∧
    (∀ bs, s zkpoexEncKeyPath = some bs → bs.length = 32 →
      loadSessionKey s = .ok bs) ∧
    (∀ key, loadSessionKey s = .ok key →
      ecdhSessionInputs s rngNonce localSk vendorPk =
        .ok (key, rngNonce, localSk, vendorPk)) := by
  refine ⟨?_, ?_, ?_, ?_⟩
  · intro h
    simp [loadSessionKey, fsRead, h]
  · intro bs h hne
    simp [loadSessionKey, fsRead, h, hne]
  · intro bs h he
    simp [loadSessionKey, fsRead, h, he]
  · intro key h
    simp [ecdhSessionInputs, h]

/-- Witness for C7: the empty store gives `KeyNotFound`, a 3-byte
slot gives `KeyLengthMismatch`, and a 32-byte slot is loaded into the
prover inputs together with the locally sampled nonce. -/
theorem load_session_key_spec_witness :
    loadSessionKey (fun _ => none) = .error .KeyNotFound ∧
    loadSessionKey (fsWrite (fun _ => none) zkpoexEncKeyPath [1, 2, 3]) =
      .error .KeyLengthMismatch ∧
    ecdhSessionInputs (fsWrite (fun _ => none) zkpoexEncKeyPath
      (List.replicate 32 5)) [7] [8] [9] =
      .ok (List.replicate 32 5, [7], [8], [9]) := by
  refine ⟨(load_session_key_spec (fun _ => none) [] [] []).1 rfl, ?_, ?_⟩
  · exact (load_session_key_spec _ [] [] []).2.1 [1, 2, 3]
      (by simp [fsWrite]) (by decide)
  · exact (load_session_key_spec _ [7] [8] [9]).2.2.2 (List.replicate 32 5)
      ((load_session_key_spec _ [7] [8] [9]).2.2.1 (List.replicate 32 5)
        (by simp [fsWrite]) (by decide))

/-- C8: the time-delayed session's round computation fails with
`InvalidDuration` exactly when the duration is absent, succeeds with
`round_after` for every present duration, and an omitted `--duration`
flag is replaced by the documented default of 90 days (7776000 s), so
the CLI path never leaves the duration absent. -/
theorem disclosure_round_failure_modes (now period genesis : Nat) :
    computeDisclosureRound none now period genesis =
      .error .InvalidDuration ∧
    (∀ d, computeDisclosureRound (some d) now period genesis =
      .ok (round_after now d period genesis)) ∧
    cliParsedDuration none = some 7776000 ∧
    (∀ flag, ∃ r, computeDisclosureRound (cliParsedDuration flag)
      now period genesis = .ok r) :=
  ⟨rfl, fun _ => rfl, rfl, fun _ => ⟨_, rfl⟩⟩

/-- C3 (counterexample): the time-delayed session's fixture — written
to the verifier-facing fixtures directory — does contain the plaintext
secret key: its `key` field is the session key itself, and two
fixtures differing only in the secret key (ciphertext and commitment
fields held fixed) are different records. -/
theorem zkpoex_fixture_contains_plaintext_key :
    (mkZkpoexFixture (List.replicate 32 0) (List.replicate 12 0) 1 "" "" ""
      [] [] "" "" "").key = List.replicate 32 0 ∧
    List.replicate 32 0 ≠ 1 :: List.replicate 31 0 ∧
    mkZkpoexFixture (List.replicate 32 0) (List.replicate 12 0) 1 "" "" ""
      [] [] "" "" "" ≠
    mkZkpoexFixture (1 :: List.replicate 31 0) (List.replicate 12 0) 1 "" "" ""
      [] [] "" "" "" := by
  refine ⟨rfl, by decide, fun h => ?_⟩
  have hk := congrArg SP1ZkPoExProofFixture.key h
  simp only [mkZkpoexFixture] at hk
  exact absurd hk (by decide)

/-- C3 (amended): the time-delayed fixture's `key` and `nonce` fields
equal the plaintext session key and nonce (so the key *is* written in
plaintext to the public fixture, as §6's field list records), while
the peer-targeted fixture has no plaintext-key field: its contents do
not vary with the symmetric key or nonce when the key-exchange
material and proof artifact are fixed. -/
theorem fixture_key_field_spec
    (key nonce : List Nat) (round : Nat) (before after hpi : String)
    (cc tc : List Nat) (cd bset vkey : String)
    (key' nonce' localSk vendorPk : List Nat)
    (evkey keyHashHex pv pb : String) :
    (mkZkpoexFixture key nonce round before after hpi cc tc cd bset vkey).key
      = key ∧
    (mkZkpoexFixture key nonce round before after hpi cc tc cd bset vkey).nonce
      = nonce ∧
    ecdhSessionFixture key nonce localSk vendorPk evkey keyHashHex pv pb =
      ecdhSessionFixture key' nonce' localSk vendorPk evkey keyHashHex pv pb :=
  ⟨rfl, rfl, rfl⟩

/-- C6: over byte-valued inputs, the time-delayed path's public-value
decoder succeeds exactly on well-formed encodings of the 5-field
tuple, the peer-targeted path's decoder succeeds exactly on
well-formed ABI encodings of the {key hash, key cipher} pair, and
each returns `PublicValueDecodeError` — never a default value — on
every other input. -/
theorem public_values_decode_exact (bs : List Nat)
    (hby : ∀ x ∈ bs, x < 256) :
    ((∃ t, decodeZkpoexPublicValues bs = .ok t) ↔
      (∃ a b c d e : List Nat, a.length < 256 ^ 8 ∧ b.length < 256 ^ 8 ∧
        c.length < 256 ^ 8 ∧ d.length < 256 ^ 8 ∧ e.length < 256 ^ 8 ∧
        bs = encodeZkpoexPublicValues a b c d e)) ∧
    ((¬ ∃ t, decodeZkpoexPublicValues bs = .ok t) →
      decodeZkpoexPublicValues bs = .error .PublicValueDecodeError) ∧
    ((∃ p, decodeKeyEncOut bs = .ok p) ↔
      (∃ kh kc : List Nat, kh.length = 32 ∧ kc.length < 256 ^ 32 ∧
        bs = encodeKeyEncOut kh kc)) ∧
    ((¬ ∃ p, decodeKeyEncOut bs = .ok p) →
      decodeKeyEncOut bs = .error .PublicValueDecodeError) := by
  refine ⟨⟨?_, ?_⟩, ?_, ⟨?_, ?_⟩, ?_⟩
  · rintro ⟨⟨a, b, c, d, e⟩, ht⟩
    have h' : decodeZkpoexTuple bs = some (a, b, c, d, e) := by
      simp only [decodeZkpoexPublicValues] at ht
      rcases hh : decodeZkpoexTuple bs with _ | t'
      · rw [hh] at ht
        simp at ht
      · rw [hh] at ht
        simp only [Except.ok.injEq] at ht
        rw [ht]
    obtain ⟨henc, ha, hb2, hc2, hd2, he2⟩ :=
      decodeZkpoexTuple_eq_some bs hby a b c d e h'
    exact ⟨a, b, c, d, e, ha, hb2, hc2, hd2, he2, henc⟩
  · rintro ⟨a, b, c, d, e, ha, hb2, hc2, hd2, he2, henc⟩
    refine ⟨(a, b, c, d, e), ?_⟩
    simp only [decodeZkpoexPublicValues, henc,
      decodeZkpoexTuple_encode a b c d e ha hb2 hc2 hd2 he2]
  · intro hne
    rcases hh : decodeZkpoexPublicValues bs with er | t
    · cases er
      rfl
    · exact absurd ⟨t, hh⟩ hne
  · rintro ⟨⟨kh, kc⟩, hp⟩
    obtain ⟨henc, hkh, hkc⟩ := decodeKeyEncOut_eq_ok bs hby kh kc hp
    exact ⟨kh, kc, hkh, hkc, henc⟩
  · rintro ⟨kh, kc, hkh, hkc, henc⟩
    refine ⟨(kh, kc), ?_⟩
    rw [henc]
    exact decodeKeyEncOut_encode kh kc hkh hkc
  · intro hne
    rcases hh : decodeKeyEncOut bs with er | p
    · cases er
      rfl
    · exact absurd ⟨p, hh⟩ hne

/-- Witness for C6: the 40-zero-byte string is the encoding of the
5-field tuple with five empty fields, and the time-delayed decoder
accepts it. -/
theorem public_values_decode_exact_witness :
    (∀ x ∈ List.replicate 40 0, x < 256) ∧
    (∃ t, decodeZkpoexPublicValues (List.replicate 40 0) = .ok t) := by
  have hby : ∀ x ∈ List.replicate 40 0, x < 256 := by decide
  exact ⟨hby, (public_values_decode_exact (List.replicate 40 0) hby).1.mpr
    ⟨[], [], [], [], [], by norm_num, by norm_num, by norm_num, by norm_num,
      by norm_num, by decide⟩⟩
